import Mathlib

/-!
Verification development for the CP-SAT cut-selection core
(`src/main_cpsat.py` of the CPSATr repository).

The Python source is shallowly embedded: the catalog loader's
normalization step, the depth upper-bound DFS, the constraint system
built by `build_model` (expressed as decidable satisfaction predicates
over an explicit variable assignment), the chosen-cut extraction, and
the two-phase solver driver control flow (with the CP-SAT solver
abstracted as an outcome value).  All definitions are computable so
concrete catalogs can be evaluated by `decide` / `rfl`.
-/

set_option maxRecDepth 10000

namespace CPSATr

/-! ## Raw (JSON-level) data model, `_load_cuts_data` / `_normalize_cuts_data` -/

/-- A JSON scalar that can sit in a cost field of a cut record: either an
integer (the intended type) or a string (an ill-typed value the loader is
claimed to reject). -/
inductive CostVal where
  | int : Int → CostVal
  | str : String → CostVal
deriving DecidableEq, Repr

/-- A cut given in record (dict) form: `{"leaves": [...], "inv_cost": ...,
"area_cost": ..., "depth_cost": ...}` where each cost key may be absent
(`none`). -/
structure CutRecord where
  leaves : List String
  inv_cost : Option CostVal
  area_cost : Option CostVal
  depth_cost : Option CostVal
deriving DecidableEq, Repr

/-- A raw cut as found in the input JSON: either a bare list of leaves or a
record. -/
inductive RawCut where
  | bare : List String → RawCut
  | record : CutRecord → RawCut
deriving DecidableEq, Repr

/-- A raw node object: `{"name": str, "cuts": [cut, ...]}`. -/
structure RawNode where
  name : String
  cuts : List RawCut
deriving DecidableEq, Repr

/-- The raw top-level catalog object.  `inputs` / `outputs` are `none` when
the key is absent from the JSON object. -/
structure RawData where
  nodes : List RawNode
  inputs : Option (List String)
  outputs : Option (List String)
deriving DecidableEq, Repr

/-- One cut of `_normalize_cuts_data`'s loop (src/main_cpsat.py lines
120-130): a cut that is already a dict is appended unchanged; a bare list
is lifted to a record with `inv_cost=0`, `area_cost=len(leaves)`,
`depth_cost=1`. -/
def normalizeCut (c : RawCut) : RawCut :=
  match c with
  | .record r => .record r
  | .bare ls => .record ⟨ls, some (.int 0), some (.int ls.length), some (.int 1)⟩

/-- Embeds `_normalize_cuts_data` (src/main_cpsat.py lines 114-137): every
node's cuts are normalized with `normalizeCut`; a missing `inputs` key is
replaced by the empty list; `outputs` is left untouched.  The source never
raises here, so the embedding is a total function. -/
def normalize_cuts_data (d : RawData) : RawData :=
  { nodes := d.nodes.map (fun nd => { nd with cuts := nd.cuts.map normalizeCut }),
    inputs := some (d.inputs.getD []),
    outputs := d.outputs }

/-- The effective (use-site) reading of a cut record's fields, exactly as
`build_model` reads them (src/main_cpsat.py lines 232, 236-238):
`cut_obj["leaves"]`, `cut_obj.get("inv_cost", 0)`,
`cut_obj.get("area_cost", len(leaves))`, `cut_obj.get("depth_cost", 1)`. -/
def effView (r : CutRecord) : List String × CostVal × CostVal × CostVal :=
  (r.leaves,
   r.inv_cost.getD (.int 0),
   r.area_cost.getD (.int (r.leaves.length : Int)),
   r.depth_cost.getD (.int 1))

/-- Projects the record out of a normalized cut (after
`_normalize_cuts_data` every cut is a record). -/
def recOf (c : RawCut) : Option CutRecord :=
  match c with
  | .record r => some r
  | .bare _ => none

/-! ## Effective catalog, as consumed by `build_model` and the depth bounder

After normalization every cut is a record and all cost reads go through
`.get` with integer defaults; for the well-typed catalogs the model claims
quantify over, a cut is therefore a list of leaves plus three natural
number costs (the spec's data model: non-negative integers). -/

/-- A cut as the model builder effectively sees it. -/
structure NCut where
  leaves : List String
  inv_cost : Nat
  area_cost : Nat
  depth_cost : Nat
deriving DecidableEq, Repr

/-- A catalog node. -/
structure NNode where
  name : String
  cuts : List NCut
deriving DecidableEq, Repr

/-- The loaded catalog: `data["nodes"]`, `data.get("outputs", [])`,
`data.get("inputs") or []` (src/main_cpsat.py lines 212-214). -/
structure Catalog where
  nodes : List NNode
  outputs : List String
  inputs : List String
deriving DecidableEq, Repr

/-- The names of the catalog nodes, i.e. the key set of `var_node_used`,
`node_map`, `level_vars` and `node_names` in the source. -/
def nodeNames (nodes : List NNode) : List String :=
  nodes.map (fun nd => nd.name)

/-- The self-cut test of src/main_cpsat.py line 233 (and line 168):
`len(leaves) == 1 and leaves[0] == nname`. -/
def isSelfCut (name : String) (c : NCut) : Bool :=
  match c.leaves with
  | [l] => l == name
  | _ => false

/-- The cut-variable list of one node, paired with the ORIGINAL positional
cut index: the loop `for i, cut_obj in enumerate(nd["cuts"])` with
`continue` on self-cuts (src/main_cpsat.py lines 231-250).  `k` is the
running value of `enumerate`'s counter. -/
def cutVarsAux (name : String) (k : Nat) : List NCut → List (Nat × NCut)
  | [] => []
  | c :: rest =>
    if isSelfCut name c then cutVarsAux name (k + 1) rest
    else (k, c) :: cutVarsAux name (k + 1) rest

/-- Cut variables of a node record, indexed by original cut position. -/
def cutVars (nd : NNode) : List (Nat × NCut) :=
  cutVarsAux nd.name 0 nd.cuts

/-- Python-dict lookup over the node list (`node_map = {nd["name"]: nd for
nd in nodes}`): on duplicate names the LAST record wins, hence the
`reverse`. -/
def nodeLookup (nodes : List NNode) (name : String) : Option NNode :=
  nodes.reverse.find? (fun nd => nd.name == name)

/-- The value of the dict `var_cut[name]` after the construction loop: the
cut-variable list of the last record carrying `name`, or `[]` for unknown
names. -/
def varCutOf (nodes : List NNode) (name : String) : List (Nat × NCut) :=
  match nodeLookup nodes name with
  | some nd => cutVars nd
  | none => []

/-! ## Solver assignments and the constraint system -/

/-- A candidate valuation of the model's variables: `used[n]`,
`chosen[n,i]` (keyed by node name and original cut index), `level[n]`, and
the global `D`.  Only names/indices that actually carry a variable are
meaningful; the rest of the function graph is ignored by every
constraint. -/
structure Assign where
  used : String → Bool
  chosen : String → Nat → Bool
  level : String → Nat
  dvar : Nat

/-- Constraint (A) of `build_model` (src/main_cpsat.py lines 252-259): for
every node record, `sum(chosen vars) == used` when the filtered cut list
is non-empty, else `used == 0`.  The sum of 0/1 variables equals the count
of true ones. -/
def satisfiesA (nodes : List NNode) (a : Assign) : Bool :=
  nodes.all (fun nd =>
    let cv := varCutOf nodes nd.name
    if cv.isEmpty then a.used nd.name == false
    else cv.countP (fun ic => a.chosen nd.name ic.1) == (if a.used nd.name then 1 else 0))

/-- Constraint (B) of `build_model` (src/main_cpsat.py lines 261-270):
`chosen[n,i] => used[leaf]` for every leaf naming a catalog node; leaves
outside the catalog get `chosen[n,i] => forced_1`, a tautology. -/
def satisfiesB (nodes : List NNode) (a : Assign) : Bool :=
  nodes.all (fun nd =>
    (varCutOf nodes nd.name).all (fun ic =>
      ic.2.leaves.all (fun leaf =>
        if (nodeNames nodes).contains leaf then
          !(a.chosen nd.name ic.1) || a.used leaf
        else
          true)))

/-- The set of node names forced to `used == 1` by the root-enforcement
block (src/main_cpsat.py lines 308-318): declared outputs filtered to
existing names; on empty outputs, `"Nout"` when present, else the last
node. -/
def rootForced (data : Catalog) : List String :=
  if data.outputs ≠ [] then
    data.outputs.filter (fun out => (nodeNames data.nodes).contains out)
  else if (nodeNames data.nodes).contains "Nout" then ["Nout"]
  else
    match data.nodes.getLast? with
    | some nd => [nd.name]
    | none => []

/-- Constraint (D): every forced root is used. -/
def satisfiesRoots (data : Catalog) (a : Assign) : Bool :=
  (rootForced data).all (fun r => a.used r)

/-- The per-cut depth step `ci.get("depth_cost", 1) or 1`
(src/main_cpsat.py line 298; same expression at line 173): a falsy (zero)
stored cost becomes 1. -/
def stepOf (c : NCut) : Nat :=
  if c.depth_cost = 0 then 1 else c.depth_cost

/-- Converts a boolean variable value to the integer the linear
constraints see. -/
def boolToInt (b : Bool) : Int :=
  if b then 1 else 0

/-- The `max_depth_bound` of `build_model` (src/main_cpsat.py line 275):
`max(1, depth_bound or len(node_dicts) or 1)`. -/
def maxDepthBound (nodes : List NNode) (depth_bound : Nat) : Nat :=
  max 1 (if depth_bound = 0 then (if nodes.length = 0 then 1 else nodes.length) else depth_bound)

/-- Constraint block (C), the depth model (src/main_cpsat.py lines
274-306): variable domains `level[n], D ∈ [0, max_depth_bound]`; declared
inputs that are catalog nodes pinned to level 0; `level[n] <= M*used[n]`;
`level[n] >= used[n]` for non-inputs; the big-M implication
`level[n] >= level[leaf] + step - M*(1 - chosen[n,i])` for every leaf of
every cut variable that names a catalog node; `D >= level[n]`; and
`D == fix_depth` when a fixed depth is supplied. -/
def satisfiesLevels (data : Catalog) (depth_bound : Nat) (fixDepth : Option Nat) (a : Assign) : Bool :=
  let nodes := data.nodes
  let names := nodeNames nodes
  let bigM := maxDepthBound nodes depth_bound
  (data.inputs.all (fun inp => if names.contains inp then a.level inp == 0 else true)) &&
  (nodes.all (fun nd =>
    let usedInt : Int := boolToInt (a.used nd.name)
    (decide (a.level nd.name ≤ bigM)) &&
    (decide ((a.level nd.name : Int) ≤ (bigM : Int) * usedInt)) &&
    (if data.inputs.contains nd.name then true
     else decide (usedInt ≤ (a.level nd.name : Int))) &&
    ((varCutOf nodes nd.name).all (fun ic =>
      ic.2.leaves.all (fun leaf =>
        if names.contains leaf then
          decide ((a.level leaf : Int) + (stepOf ic.2 : Int)
            - (bigM : Int) * (1 - boolToInt (a.chosen nd.name ic.1))
            ≤ (a.level nd.name : Int))
        else true))))) &&
  (decide (a.dvar ≤ bigM)) &&
  (nodes.all (fun nd => decide (a.level nd.name ≤ a.dvar))) &&
  (match fixDepth with
   | some f => a.dvar == f
   | none => true)

/-! ## Chosen-cut extraction -/

/-- Embeds `_extract_chosen_cuts` (src/main_cpsat.py lines 190-200): for
every node record whose `used` value is 1, the FIRST cut variable with
value 1 contributes `(name, cut_index)`; a used node with no true cut
variable contributes nothing. -/
def extract_chosen_cuts (nodes : List NNode) (a : Assign) : List (String × Nat) :=
  nodes.filterMap (fun nd =>
    if a.used nd.name then
      ((varCutOf nodes nd.name).find? (fun ic => a.chosen nd.name ic.1)).map
        (fun ic => (nd.name, ic.1))
    else none)

/-! ## Depth bounder (`_compute_depth_upper_bound`, src/main_cpsat.py lines 140-187)

The Python `depth` closure is a memoized DFS with a `visiting` stack and a
cycle sentinel.  The embedding threads the memo dictionary explicitly (an
association list where the most recent write shadows) and carries the
`visiting` stack as an argument; a fuel parameter makes the recursion
structural, and the fuel-sufficiency lemma below shows the `none`
(out-of-fuel) result is never produced from a sufficient initial fuel, so
the fueled function computes exactly the source's total recursion. -/

/-- The memo dictionary of the `depth` closure. -/
def Memo : Type := List (String × Nat)

/-- The cycle sentinel `len(nodes) or 1` (src/main_cpsat.py line 159). -/
def sentinelOf (nodes : List NNode) : Nat :=
  if nodes.length = 0 then 1 else nodes.length

/-- The generator `max((depth(l) for l in leaves), default=0)`
(src/main_cpsat.py line 172), threading the memo left to right through the
recursive calls `f`. -/
def depthLeavesF (f : String → Memo → Option (Nat × Memo)) :
    List String → Memo → Nat → Option (Nat × Memo)
  | [], memo, acc => some (acc, memo)
  | l :: rest, memo, acc =>
    match f l memo with
    | none => none
    | some (d, memo1) => depthLeavesF f rest memo1 (max acc d)

/-- The `best = None; for cut in nd.get("cuts", []): ...` loop
(src/main_cpsat.py lines 165-175): skip self-cuts, drop self-references
from the leaves, take the leaf maximum plus the cut's depth step, and keep
the minimum over cuts. -/
def depthCutsF (f : String → Memo → Option (Nat × Memo)) (name : String) :
    List NCut → Memo → Option Nat → Option (Option Nat × Memo)
  | [], memo, best => some (best, memo)
  | c :: rest, memo, best =>
    if isSelfCut name c then depthCutsF f name rest memo best
    else
      match depthLeavesF f (c.leaves.filter (fun l => l ≠ name)) memo 0 with
      | none => none
      | some (leafMax, memo1) =>
        let cutDepth := leafMax + stepOf c
        let best1 :=
          match best with
          | none => some cutDepth
          | some b => if cutDepth < b then some cutDepth else some b
        depthCutsF f name rest memo1 best1

/-- The memoized `depth(name)` closure (src/main_cpsat.py lines 154-179):
memo hit first; then the `visiting` cycle check returning the sentinel
WITHOUT writing the memo; unknown names are primary inputs of depth 0
(memoized); otherwise the node is pushed on the stack, its cuts folded,
and `best if best is not None else 0` memoized. -/
def depthGo (nodes : List NNode) : Nat → List String → String → Memo → Option (Nat × Memo)
  | 0, _, _, _ => none
  | fuel + 1, visiting, name, memo =>
    match List.lookup name memo with
    | some v => some (v, memo)
    | none =>
      if visiting.contains name then some (sentinelOf nodes, memo)
      else
        match nodeLookup nodes name with
        | none => some (0, (name, 0) :: memo)
        | some nd =>
          match depthCutsF (depthGo nodes fuel (name :: visiting)) nd.name nd.cuts memo none with
          | none => none
          | some (best, memo1) =>
            let b := best.getD 0
            some (b, (name, b) :: memo1)

/-- Number of distinct catalog names not currently on the DFS stack; the
recursion depth of `depth` is bounded by it. -/
def measureOf (nodes : List NNode) (visiting : List String) : Nat :=
  ((nodeNames nodes).dedup.filter (fun x => !(visiting.contains x))).length

/-- A sufficient fuel for any top-level `depth` call. -/
def fuelOf (nodes : List NNode) : Nat :=
  measureOf nodes [] + 1

/-- The root set the depth bounder walks (src/main_cpsat.py lines
143-149): declared outputs (unfiltered), else `"Nout"` when it is a
catalog node, else the last node, else nothing. -/
def resolvedRoots (data : Catalog) : List String :=
  if data.outputs ≠ [] then data.outputs
  else if (nodeNames data.nodes).contains "Nout" then ["Nout"]
  else
    match data.nodes.getLast? with
    | some nd => [nd.name]
    | none => []

/-- The comprehension `[depth(out) for out in outputs]` (src/main_cpsat.py
line 181); the memo persists across root calls exactly as the shared
closure dictionary does. -/
def rootDepths (nodes : List NNode) (fuel : Nat) : List String → Memo → Option (List Nat)
  | [], _ => some []
  | r :: rest, memo =>
    match depthGo nodes fuel [] r memo with
    | none => none
    | some (d, memo1) => (rootDepths nodes fuel rest memo1).map (fun ds => d :: ds)

/-- The `base` of src/main_cpsat.py line 182: the maximum of the root
depths when the root set is non-empty, else `len(nodes) or 1`.  The `none`
branch cannot fire with fuel `fuelOf` (lemma `depthGo_ne_none` below). -/
def baseOf (data : Catalog) : Nat :=
  match rootDepths data.nodes (fuelOf data.nodes) (resolvedRoots data) [] with
  | some ds =>
    match ds with
    | [] => if data.nodes.length = 0 then 1 else data.nodes.length
    | _ => ds.foldl max 0
  | none => 0

/-- Embeds `_compute_depth_upper_bound` (src/main_cpsat.py lines 181-187):
`ub_with_slack = max(base + 10, int(base * 1.5))`, then
`ub = max(ub_with_slack, len(nodes) or 1)`, then `max(1, ub)`.  Python's
`int(base * 1.5)` truncates, i.e. equals `3 * base / 2` in natural number
division. -/
def compute_depth_upper_bound (data : Catalog) : Nat :=
  let base := baseOf data
  let withSlack := max (base + 10) (3 * base / 2)
  let ub := max withSlack (if data.nodes.length = 0 then 1 else data.nodes.length)
  max 1 ub

/-- Modelled from the spec: the formula the spec's Depth Bounder section
prescribes, `max(base + 10, ceil(1.5 * base), len(nodes), 1)`, with the
same `base`; stated only to be compared with
`compute_depth_upper_bound`. -/
def specDepthUpperBound (data : Catalog) : Nat :=
  let base := baseOf data
  max (max (base + 10) ((3 * base + 1) / 2)) (max data.nodes.length 1)

/-! ## Two-phase solver driver (`solve_circuit`, src/main_cpsat.py lines 408-506) -/

/-- The solver status vocabulary surfaced by `_status_to_str`. -/
inductive Status where
  | OPTIMAL
  | FEASIBLE
  | INFEASIBLE
  | UNKNOWN
deriving DecidableEq, Repr

/-- The test `status in (cp_model.OPTIMAL, cp_model.FEASIBLE)`. -/
def isFeasible (s : Status) : Bool :=
  match s with
  | .OPTIMAL => true
  | .FEASIBLE => true
  | _ => false

/-- One CP-SAT solve abstracted to what the driver reads off it: the
returned status, the variable valuation (`solver.Value`), and
`solver.ObjectiveValue()`. -/
structure SolveOutcome where
  status : Status
  assign : Assign
  objectiveValue : Int

/-- What one `solve_circuit` run produces: the returned record's fields,
whether the chosen-cuts JSON file was written (reaching src/main_cpsat.py
line 502), and the printed depth / tie-break diagnostics. -/
structure DriverResult where
  status : Status
  objectiveValue : Option Int
  chosenCuts : List (String × Nat)
  written : Bool
  printedD : Option Int
  printedTie : Option Int
deriving Repr

/-- The non-depth branch of `solve_circuit` (src/main_cpsat.py lines
472-491 and the shared tail 493-506): on a feasible or optimal status the
chosen cuts are extracted and the file is written; otherwise the status is
returned with a null objective and no file. -/
def solveSingleMode (data : Catalog) (o : SolveOutcome) : DriverResult :=
  if isFeasible o.status then
    { status := o.status,
      objectiveValue := some o.objectiveValue,
      chosenCuts := extract_chosen_cuts data.nodes o.assign,
      written := true,
      printedD := none,
      printedTie := none }
  else
    { status := o.status, objectiveValue := none, chosenCuts := [],
      written := false, printedD := none, printedTie := none }

/-- The depth/overall branch of `solve_circuit` (src/main_cpsat.py lines
414-471 and the shared tail): Phase A infeasible aborts with a null
objective and no file; otherwise `best_depth = value(D)` of Phase A is the
reported objective, Phase B's cuts are used when Phase B is feasible (its
objective printed as the tie-break), and Phase A's cuts are the fallback
otherwise. -/
def solveDepthMode (data : Catalog) (oa ob : SolveOutcome) : DriverResult :=
  if isFeasible oa.status then
    let bestDepth := oa.assign.dvar
    let phaseACuts := extract_chosen_cuts data.nodes oa.assign
    if isFeasible ob.status then
      { status := ob.status,
        objectiveValue := some (bestDepth : Int),
        chosenCuts := extract_chosen_cuts data.nodes ob.assign,
        written := true,
        printedD := some (ob.assign.dvar : Int),
        printedTie := some ob.objectiveValue }
    else
      { status := oa.status,
        objectiveValue := some (bestDepth : Int),
        chosenCuts := phaseACuts,
        written := true,
        printedD := some (bestDepth : Int),
        printedTie := none }
  else
    { status := oa.status, objectiveValue := none, chosenCuts := [],
      written := false, printedD := none, printedTie := none }

/-! ## Concrete instances used by witnesses and counterexamples -/

/-- A catalog whose only node has a bare-list cut. -/
def dBare : RawData := ⟨[⟨"a", [.bare ["x"]]⟩], none, none⟩

/-- The same catalog with the cut written as a record with all cost keys
absent — semantically identical to `dBare` under the use-site defaults. -/
def dDict : RawData := ⟨[⟨"a", [.record ⟨["x"], none, none, none⟩]⟩], none, none⟩

/-- A catalog containing a cut record whose `inv_cost` is a string. -/
def dBad : RawData := ⟨[⟨"a", [.record ⟨[], some (.str "oops"), none, none⟩]⟩], none, none⟩

/-- The ill-typed record inside `dBad`. -/
def badRecord : CutRecord := ⟨[], some (.str "oops"), none, none⟩

/-- A catalog whose single root cut has `depth_cost = 21`, giving
`base = 21`: the point where `int(base * 1.5)` and `ceil(1.5 * base)`
part ways. -/
def cat21 : Catalog := ⟨[⟨"a", [⟨["x"], 0, 1, 21⟩]⟩], ["a"], []⟩

/-- A two-node catalog whose leaf references form a cycle. -/
def cyc : Catalog :=
  ⟨[⟨"a", [⟨["b"], 0, 1, 1⟩]⟩, ⟨"b", [⟨["a"], 0, 1, 1⟩]⟩], ["a"], []⟩

/-- Scenario S3 of the spec: cut 0 is a self-cut, cut 1 is real. -/
def selfcutNodes : List NNode := [⟨"a", [⟨["a"], 0, 1, 1⟩, ⟨["x"], 0, 1, 1⟩]⟩]

/-- The assignment selecting cut index 1 of node `a`. -/
def selfcutAssign : Assign :=
  ⟨fun s => s == "a", fun s i => s == "a" && i == 1, fun _ => 0, 0⟩

/-- Scenario S2 of the spec: a two-deep chain. -/
def chainNodes : List NNode :=
  [⟨"a", [⟨["x"], 0, 1, 1⟩]⟩, ⟨"b", [⟨["a"], 0, 1, 1⟩]⟩]

/-- The assignment using both chain nodes with their only cut. -/
def chainAssign : Assign :=
  ⟨fun s => s == "a" || s == "b",
   fun s i => (s == "a" || s == "b") && i == 0,
   fun _ => 0, 0⟩

/-- The chain catalog with no declared outputs (a last-node fallback
case). -/
def c9data : Catalog := ⟨chainNodes, [], []⟩

/-- A catalog whose single node `n` carries a non-self cut mentioning `n`
itself among its leaves. -/
def c10data : Catalog := ⟨[⟨"n", [⟨["n", "x"], 0, 2, 1⟩]⟩], ["n"], []⟩

/-- The assignment choosing that cut. -/
def c10assign : Assign :=
  ⟨fun s => s == "n", fun s i => s == "n" && i == 0, fun _ => 0, 0⟩

/-- The all-zero assignment. -/
def allZeroAssign : Assign := ⟨fun _ => false, fun _ _ => false, fun _ => 0, 0⟩

/-- An optimal solve outcome over the all-zero valuation. -/
def outcomeOpt : SolveOutcome := ⟨.OPTIMAL, allZeroAssign, 5⟩

/-- A feasible (timeout incumbent) solve outcome. -/
def outcomeFeas : SolveOutcome := ⟨.FEASIBLE, allZeroAssign, 7⟩

/-- An infeasible solve outcome. -/
def outcomeInf : SolveOutcome := ⟨.INFEASIBLE, allZeroAssign, 0⟩

/-! ## Helper lemmas -/

theorem contains_iff_mem (l : List String) (x : String) :
    l.contains x = true ↔ x ∈ l := by
  simp [List.contains]

theorem nodeLookup_name {nodes : List NNode} {n : String} {nd : NNode}
    (h : nodeLookup nodes n = some nd) : nd.name = n := by
  have := List.find?_some h
  simpa using this

theorem nodeLookup_mem {nodes : List NNode} {n : String} {nd : NNode}
    (h : nodeLookup nodes n = some nd) : nd ∈ nodes := by
  have := List.mem_of_find?_eq_some h
  simpa using this

theorem mem_names_exists_lookup {nodes : List NNode} {n : String}
    (h : n ∈ nodeNames nodes) : ∃ nd, nodeLookup nodes n = some nd := by
  have hs : (nodes.reverse.find? (fun nd => nd.name == n)).isSome = true := by
    rw [List.find?_isSome]
    obtain ⟨nd, hnd, rfl⟩ := List.mem_map.1 h
    exact ⟨nd, by simpa using hnd, by simp⟩
  obtain ⟨nd, hnd⟩ := Option.isSome_iff_exists.1 hs
  exact ⟨nd, hnd⟩

theorem mem_cutVarsAux (name : String) (c : NCut) (i : Nat) :
    ∀ (cuts : List NCut) (k : Nat),
      ((i, c) ∈ cutVarsAux name k cuts ↔
        ∃ j, i = k + j ∧ cuts[j]? = some c ∧ isSelfCut name c = false) := by
  intro cuts
  induction cuts with
  | nil =>
    intro k
    simp [cutVarsAux]
  | cons c0 rest ih =>
    intro k
    by_cases hs : isSelfCut name c0 = true
    · rw [show cutVarsAux name k (c0 :: rest) = cutVarsAux name (k + 1) rest from by
        simp [cutVarsAux, hs]]
      rw [ih (k + 1)]
      constructor
      · rintro ⟨j, rfl, hj, hself⟩
        refine ⟨j + 1, by omega, ?_, hself⟩
        simpa using hj
      · rintro ⟨j, hi, hj, hself⟩
        cases j with
        | zero =>
          simp only [List.getElem?_cons_zero, Option.some.injEq] at hj
          subst hj
          rw [hs] at hself
          cases hself
        | succ j2 =>
          refine ⟨j2, by omega, ?_, hself⟩
          simpa using hj
    · rw [show cutVarsAux name k (c0 :: rest) = (k, c0) :: cutVarsAux name (k + 1) rest from by
        simp [cutVarsAux, hs]]
      rw [List.mem_cons, ih (k + 1)]
      constructor
      · rintro (heq | ⟨j, rfl, hj, hself⟩)
        · rw [Prod.mk.injEq] at heq
          obtain ⟨rfl, rfl⟩ := heq
          exact ⟨0, by omega, by simp, by simpa using hs⟩
        · refine ⟨j + 1, by omega, ?_, hself⟩
          simpa using hj
      · rintro ⟨j, hi, hj, hself⟩
        cases j with
        | zero =>
          left
          simp only [List.getElem?_cons_zero, Option.some.injEq] at hj
          subst hj
          have hik : i = k := by omega
          subst hik
          rfl
        | succ j2 =>
          right
          refine ⟨j2, by omega, ?_, hself⟩
          simpa using hj

theorem mem_varCutOf (nodes : List NNode) (n : String) (i : Nat) (c : NCut) :
    (i, c) ∈ varCutOf nodes n ↔
      (∃ nd, nodeLookup nodes n = some nd ∧ nd.cuts[i]? = some c) ∧
      isSelfCut n c = false := by
  unfold varCutOf
  cases hnl : nodeLookup nodes n with
  | none => simp
  | some nd =>
    have hname := nodeLookup_name hnl
    unfold cutVars
    rw [mem_cutVarsAux]
    constructor
    · rintro ⟨j, rfl, hj, hself⟩
      rw [hname] at hself
      exact ⟨⟨nd, rfl, by simpa using hj⟩, hself⟩
    · rintro ⟨⟨nd2, hnd2, hj⟩, hself⟩
      rw [Option.some.injEq] at hnd2
      subst hnd2
      refine ⟨i, by omega, hj, ?_⟩
      rw [hname]
      exact hself

/-! ## Claim C3 -/

/-- Claim C3 counterexample: `_normalize_cuts_data` leaves dict cuts
untouched — the record with all cost keys missing comes back with them
still missing — so the bare-list catalog and the semantically identical
dict catalog normalize to DIFFERENT internal catalogs, refuting the claim
that the loader fills defaults into record cuts and that the two loads
coincide. -/
theorem normalize_dict_defaults_cex :
    normalize_cuts_data dDict =
      ⟨[⟨"a", [.record ⟨["x"], none, none, none⟩]⟩], some [], none⟩ ∧
    normalize_cuts_data dBare ≠ normalize_cuts_data dDict := by
  exact ⟨rfl, by decide⟩

/-- Claim C3 (amended): after loading, bare-list cuts are lifted to
records with the explicit defaults `inv_cost=0`, `area_cost=len(leaves)`,
`depth_cost=1`, while cuts already given as records are kept unchanged
with missing cost fields NOT filled; the defaults are instead applied
where the fields are read, so a bare-list cut and a record cut expressing
identical semantics yield the same effective (use-site) cut data even
though the internal catalogs differ. -/
theorem normalize_cuts_semantics (ls : List String) (r : CutRecord) :
    normalizeCut (RawCut.bare ls) =
      RawCut.record ⟨ls, some (.int 0), some (.int (ls.length : Int)), some (.int 1)⟩ ∧
    normalizeCut (RawCut.record r) = RawCut.record r ∧
    effView ⟨ls, some (.int 0), some (.int (ls.length : Int)), some (.int 1)⟩ =
      effView ⟨ls, none, none, none⟩ := by
  exact ⟨rfl, rfl, rfl⟩

/-! ## Claim C5 -/

/-- Claim C5 counterexample: a catalog holding a cut record whose
`inv_cost` is the string `"oops"` passes through normalization unchanged —
the loader performs no cost-type validation and nothing is rejected before
model construction, refuting the claimed `BadCatalog` failure on
non-integer cost fields. -/
theorem normalize_nonint_cost_cex :
    normalize_cuts_data dBad =
      ⟨[⟨"a", [.record ⟨[], some (.str "oops"), none, none⟩]⟩], some [], none⟩ := rfl

/-- Claim C5 (amended): loading fails only on an unreadable or
syntactically malformed file; cut records with non-integer cost fields are
NOT validated — every record cut, whatever the type of its cost fields,
survives `_normalize_cuts_data` verbatim into the normalized catalog and
reaches model construction. -/
theorem record_cuts_pass_through (d : RawData) (nd : RawNode) (r : CutRecord)
    (hnd : nd ∈ d.nodes) (hc : RawCut.record r ∈ nd.cuts) :
    ∃ nd2 ∈ (normalize_cuts_data d).nodes,
      nd2.name = nd.name ∧ RawCut.record r ∈ nd2.cuts := by
  refine ⟨{ nd with cuts := nd.cuts.map normalizeCut }, ?_, rfl, ?_⟩
  · exact List.mem_map.2 ⟨nd, hnd, rfl⟩
  · exact List.mem_map.2 ⟨RawCut.record r, hc, rfl⟩

/-- Witness for `record_cuts_pass_through` at the concrete `dBad`
catalog. -/
theorem record_cuts_pass_through_witness :
    ∃ nd2 ∈ (normalize_cuts_data dBad).nodes,
      nd2.name = "a" ∧ RawCut.record badRecord ∈ nd2.cuts :=
  record_cuts_pass_through dBad ⟨"a", [RawCut.record badRecord]⟩ badRecord
    (by decide) (by decide)

/-! ## Claim C4 -/

/-- Claim C4 counterexample: at `base = 21` (one root whose single cut has
`depth_cost = 21`) the code returns `max(31, int(31.5)) = 31`, while the
claimed formula with the ceiling gives `max(31, 32) = 32`. -/
theorem depth_upper_bound_ceil_cex :
    compute_depth_upper_bound cat21 = 31 ∧ specDepthUpperBound cat21 = 32 := by
  exact ⟨by decide, by decide⟩

/-- Claim C4 (amended): `depth_upper_bound` returns exactly
`max(base + 10, floor(1.5 * base), len(nodes), 1)` — Python's
`int(base * 1.5)` truncates, so the middle term is the floor, not the
ceiling — where `base` is the maximum memoized-DFS depth over the
resolved root set (or `max(len(nodes), 1)` when that set is empty), as
embedded in `baseOf`. -/
theorem depth_upper_bound_formula (data : Catalog) :
    compute_depth_upper_bound data =
      max (max (baseOf data + 10) (3 * baseOf data / 2)) (max data.nodes.length 1) := by
  unfold compute_depth_upper_bound
  simp only [Nat.max_def]
  split_ifs <;> omega

/-! ## Claim C6 -/

/-- Claim C6: in the depth-aware modes, when Phase A is feasible the
result's objective value is Phase A's `best_depth` (the value of `D` in
Phase A's solution); if Phase B is also feasible its chosen cuts are the
ones emitted and its objective is reported as the tie-break value, and if
Phase B is not feasible Phase A's chosen cuts are emitted instead. -/
theorem two_phase_result_selection (data : Catalog) (oa ob : SolveOutcome)
    (ha : isFeasible oa.status = true) :
    (isFeasible ob.status = true →
      (solveDepthMode data oa ob).chosenCuts = extract_chosen_cuts data.nodes ob.assign ∧
      (solveDepthMode data oa ob).objectiveValue = some (oa.assign.dvar : Int) ∧
      (solveDepthMode data oa ob).printedTie = some ob.objectiveValue) ∧
    (isFeasible ob.status = false →
      (solveDepthMode data oa ob).chosenCuts = extract_chosen_cuts data.nodes oa.assign ∧
      (solveDepthMode data oa ob).objectiveValue = some (oa.assign.dvar : Int)) := by
  cases hb : isFeasible ob.status <;> simp [solveDepthMode, ha, hb]

/-- Witness for `two_phase_result_selection`: Phase A optimal, Phase B
infeasible, on the `c10data` catalog. -/
theorem two_phase_result_selection_witness :
    (solveDepthMode c10data outcomeOpt outcomeInf).chosenCuts =
      extract_chosen_cuts c10data.nodes outcomeOpt.assign ∧
    (solveDepthMode c10data outcomeOpt outcomeInf).objectiveValue =
      some (outcomeOpt.assign.dvar : Int) :=
  (two_phase_result_selection c10data outcomeOpt outcomeInf (by decide)).2 (by decide)

/-! ## Claim C7 -/

/-- Claim C7: in both driver branches the chosen-cuts JSON file is written
exactly when the final status is OPTIMAL or FEASIBLE, and whenever it is
not written (including a Phase A failure in the depth modes) the returned
objective value is null. -/
theorem chosen_cuts_file_iff_feasible (data : Catalog) (oa ob o : SolveOutcome) :
    (solveDepthMode data oa ob).written = isFeasible (solveDepthMode data oa ob).status ∧
    ((solveDepthMode data oa ob).objectiveValue).isSome = (solveDepthMode data oa ob).written ∧
    (solveSingleMode data o).written = isFeasible (solveSingleMode data o).status ∧
    ((solveSingleMode data o).objectiveValue).isSome = (solveSingleMode data o).written := by
  cases hoa : isFeasible oa.status <;> cases hob : isFeasible ob.status <;>
    cases ho : isFeasible o.status <;>
    simp [solveDepthMode, solveSingleMode, hoa, hob, ho]

/-! ## Claim C9 -/

/-- Claim C9: the root-enforcement block forces exactly the spec's rule —
every declared output naming a catalog node is used; with no declared
outputs, `Nout` is used when it is a catalog node and otherwise the last
catalog node is used — and the forced set contains nothing else (the
membership characterization of `rootForced`). -/
theorem root_enforcement (data : Catalog) (a : Assign)
    (h : satisfiesRoots data a = true) :
    (∀ out ∈ data.outputs, out ∈ nodeNames data.nodes → a.used out = true) ∧
    (data.outputs = [] → (nodeNames data.nodes).contains "Nout" = true →
      a.used "Nout" = true) ∧
    (data.outputs = [] → (nodeNames data.nodes).contains "Nout" = false →
      ∀ nd, data.nodes.getLast? = some nd → a.used nd.name = true) ∧
    (∀ x, x ∈ rootForced data ↔
      (data.outputs ≠ [] ∧ x ∈ data.outputs ∧ x ∈ nodeNames data.nodes) ∨
      (data.outputs = [] ∧ (nodeNames data.nodes).contains "Nout" = true ∧ x = "Nout") ∨
      (data.outputs = [] ∧ (nodeNames data.nodes).contains "Nout" = false ∧
        ∃ nd, data.nodes.getLast? = some nd ∧ x = nd.name)) := by
  rw [satisfiesRoots, List.all_eq_true] at h
  have hchar : ∀ x, x ∈ rootForced data ↔
      (data.outputs ≠ [] ∧ x ∈ data.outputs ∧ x ∈ nodeNames data.nodes) ∨
      (data.outputs = [] ∧ (nodeNames data.nodes).contains "Nout" = true ∧ x = "Nout") ∨
      (data.outputs = [] ∧ (nodeNames data.nodes).contains "Nout" = false ∧
        ∃ nd, data.nodes.getLast? = some nd ∧ x = nd.name) := by
    intro x
    by_cases ho : data.outputs = []
    · by_cases hn : (nodeNames data.nodes).contains "Nout" = true
      · have hm := (contains_iff_mem _ _).1 hn
        simp [rootForced, ho, hn, hm]
      · rw [Bool.not_eq_true] at hn
        have hm : "Nout" ∉ nodeNames data.nodes := fun c => by
          rw [(contains_iff_mem _ _).2 c] at hn
          exact Bool.true_eq_false.mp hn
        cases hl : data.nodes.getLast? with
        | none => simp [rootForced, ho, hn, hm, hl]
        | some nd => simp [rootForced, ho, hn, hm, hl]
    · simp [rootForced, ho, List.mem_filter, contains_iff_mem]
  refine ⟨?_, ?_, ?_, hchar⟩
  · intro out hout hmem
    exact h out ((hchar out).2 (Or.inl ⟨List.ne_nil_of_mem hout, hout, hmem⟩))
  · intro ho hn
    exact h "Nout" ((hchar "Nout").2 (Or.inr (Or.inl ⟨ho, hn, rfl⟩)))
  · intro ho hn nd hl
    exact h nd.name ((hchar nd.name).2 (Or.inr (Or.inr ⟨ho, hn, nd, hl, rfl⟩)))

/-- Witness for `root_enforcement`: the chain catalog with no declared
outputs and no `Nout` node forces its last node `b`. -/
theorem root_enforcement_witness : chainAssign.used "b" = true :=
  (root_enforcement c9data chainAssign (by decide)).2.2.1 rfl (by decide)
    ⟨"b", [⟨["a"], 0, 1, 1⟩]⟩ (by decide)

/-! ## Claim C1 -/

/-- Claim C1: every entry of the extracted `chosen_cuts` maps a used node
to the ORIGINAL positional index of its selected (truly chosen) cut in the
node's cuts array — the cut-variable list pairs each variable with exactly
the original index of a non-self cut, so the omission of self-cuts does
not shift stored indices — and a self-cut never carries a variable and
never appears in the emitted mapping. -/
theorem chosen_cut_indices (nodes : List NNode) (a : Assign) :
    (∀ n i, (n, i) ∈ extract_chosen_cuts nodes a →
      a.used n = true ∧ a.chosen n i = true ∧
      ∃ nd c, nodeLookup nodes n = some nd ∧ nd.cuts[i]? = some c ∧
        isSelfCut n c = false) ∧
    (∀ n i c, (i, c) ∈ varCutOf nodes n ↔
      (∃ nd, nodeLookup nodes n = some nd ∧ nd.cuts[i]? = some c) ∧
      isSelfCut n c = false) ∧
    (∀ n i c nd, nodeLookup nodes n = some nd → nd.cuts[i]? = some c →
      isSelfCut n c = true → (n, i) ∉ extract_chosen_cuts nodes a) := by
  have hpart1 : ∀ n i, (n, i) ∈ extract_chosen_cuts nodes a →
      a.used n = true ∧ a.chosen n i = true ∧
      ∃ nd c, nodeLookup nodes n = some nd ∧ nd.cuts[i]? = some c ∧
        isSelfCut n c = false := by
    intro n i hmem
    obtain ⟨nd, hnd, heq⟩ := List.mem_filterMap.1 hmem
    cases hu : a.used nd.name with
    | false => rw [hu] at heq; cases heq
    | true =>
      rw [hu] at heq
      simp only [if_true, Option.map_eq_some'] at heq
      obtain ⟨ic, hfind, hpair⟩ := heq
      rw [Prod.mk.injEq] at hpair
      obtain ⟨hn, hi⟩ := hpair
      subst hn
      subst hi
      have hchosen := List.find?_some hfind
      have hicmem := List.mem_of_find?_eq_some hfind
      obtain ⟨⟨nd2, hnd2, hcut⟩, hself⟩ := (mem_varCutOf nodes nd.name ic.1 ic.2).1 hicmem
      exact ⟨hu, hchosen, nd2, ic.2, hnd2, hcut, hself⟩
  refine ⟨hpart1, fun n i c => mem_varCutOf nodes n i c, ?_⟩
  intro n i c nd hnl hcut hself hmem
  obtain ⟨-, -, nd2, c2, hnl2, hcut2, hself2⟩ := hpart1 n i hmem
  rw [hnl] at hnl2
  rw [Option.some.injEq] at hnl2
  subst hnl2
  rw [hcut] at hcut2
  rw [Option.some.injEq] at hcut2
  subst hcut2
  rw [hself] at hself2
  cases hself2

/-- Witness for `chosen_cut_indices`: scenario S3 — node `a` has a
self-cut at index 0 and a real cut at index 1; the extracted entry keeps
the original index 1. -/
theorem chosen_cut_indices_witness :
    selfcutAssign.used "a" = true ∧ selfcutAssign.chosen "a" 1 = true := by
  have h := (chosen_cut_indices selfcutNodes selfcutAssign).1 "a" 1 (by decide)
  exact ⟨h.1, h.2.1⟩

/-! ## Claim C2 -/

/-- Claim C2: under constraints (A) and (B), a node is used iff exactly
one of its non-self cut variables is 1 (a node whose cut-variable list is
empty — only self-cuts — is never used), and the extracted cover is
closed: every leaf of a selected cut that names a catalog node is itself
present in the extracted `chosen_cuts`. -/
theorem cover_closure (nodes : List NNode) (a : Assign)
    (hA : satisfiesA nodes a = true) (hB : satisfiesB nodes a = true) :
    (∀ nd ∈ nodes,
      (a.used nd.name = true ↔
        (varCutOf nodes nd.name).countP (fun ic => a.chosen nd.name ic.1) = 1)) ∧
    (∀ nd ∈ nodes, varCutOf nodes nd.name = [] → a.used nd.name = false) ∧
    (∀ n i, (n, i) ∈ extract_chosen_cuts nodes a →
      ∀ c, (i, c) ∈ varCutOf nodes n →
        ∀ leaf ∈ c.leaves, leaf ∈ nodeNames nodes →
          ∃ j, (leaf, j) ∈ extract_chosen_cuts nodes a) := by
  rw [satisfiesA, List.all_eq_true] at hA
  rw [satisfiesB, List.all_eq_true] at hB
  have hone : ∀ nd ∈ nodes,
      (a.used nd.name = true ↔
        (varCutOf nodes nd.name).countP (fun ic => a.chosen nd.name ic.1) = 1) := by
    intro nd hnd
    have h := hA nd hnd
    simp only at h
    cases hcv : (varCutOf nodes nd.name).isEmpty with
    | true =>
      rw [hcv] at h
      simp only [if_true, beq_iff_eq] at h
      rw [List.isEmpty_iff] at hcv
      rw [h, hcv]
      simp
    | false =>
      rw [hcv] at h
      simp only [Bool.false_eq_true, if_false, beq_iff_eq] at h
      cases hu : a.used nd.name with
      | true => rw [hu] at h; simp only [if_true] at h; simp [h]
      | false =>
        rw [hu] at h
        simp only [Bool.false_eq_true, if_false] at h
        rw [h]
        simp
  have hused_mem : ∀ leaf ∈ nodeNames nodes, a.used leaf = true →
      ∃ j, (leaf, j) ∈ extract_chosen_cuts nodes a := by
    intro leaf hleafName hused
    obtain ⟨m, hm⟩ := mem_names_exists_lookup hleafName
    have hmName := nodeLookup_name hm
    have hmMem := nodeLookup_mem hm
    have h1 := (hone m hmMem).1 (by rw [hmName]; exact hused)
    have hpos : 0 < (varCutOf nodes m.name).countP (fun ic => a.chosen m.name ic.1) := by
      omega
    obtain ⟨ic0, hic0, hic0p⟩ := List.countP_pos_iff.1 hpos
    have hfind : ((varCutOf nodes m.name).find? (fun ic => a.chosen m.name ic.1)).isSome = true := by
      rw [List.find?_isSome]
      exact ⟨ic0, hic0, hic0p⟩
    obtain ⟨ic, hic⟩ := Option.isSome_iff_exists.1 hfind
    refine ⟨ic.1, List.mem_filterMap.2 ⟨m, hmMem, ?_⟩⟩
    have husedm : a.used m.name = true := by rw [hmName]; exact hused
    rw [husedm]
    simp only [if_true, hic, Option.map_some']
    rw [hmName]
  refine ⟨hone, ?_, ?_⟩
  · intro nd hnd hcv
    have h := hA nd hnd
    simp only [hcv, List.isEmpty_nil, if_true, beq_iff_eq] at h
    exact h
  · intro n i hmem c hc leaf hleaf hleafName
    obtain ⟨nd, hnd, heq⟩ := List.mem_filterMap.1 hmem
    cases hu : a.used nd.name with
    | false => rw [hu] at heq; cases heq
    | true =>
      rw [hu] at heq
      simp only [if_true, Option.map_eq_some'] at heq
      obtain ⟨ic, hfind, hpair⟩ := heq
      rw [Prod.mk.injEq] at hpair
      obtain ⟨hn, hi⟩ := hpair
      subst hn
      subst hi
      have hchosen := List.find?_some hfind
      have hBnd := hB nd hnd
      rw [List.all_eq_true] at hBnd
      have hBc := hBnd (ic.1, c) hc
      simp only [List.all_eq_true] at hBc
      have hBleaf := hBc leaf hleaf
      rw [if_pos ((contains_iff_mem _ _).2 hleafName)] at hBleaf
      rw [hchosen] at hBleaf
      simp only [Bool.not_true, Bool.false_or] at hBleaf
      exact hused_mem leaf hleafName hBleaf

/-- Witness for `cover_closure`: scenario S2 — the chain `b → a` with both
nodes used; the leaf `a` of `b`'s selected cut is itself in the
extraction. -/
theorem cover_closure_witness :
    ∃ j, ("a", j) ∈ extract_chosen_cuts chainNodes chainAssign :=
  (cover_closure chainNodes chainAssign (by decide) (by decide)).2.2
    "b" 0 (by decide) ⟨["a"], 0, 1, 1⟩ (by decide) "a" (by decide) (by decide)

/-! ## Claim C10 -/

/-- Claim C10: in every depth-enabled model, a non-self cut whose leaves
include the owning node receives the level constraint
`level[n] >= level[n] + depth_cost` when chosen (the big-M implication
instantiated at the leaf `n` itself), so no feasible valuation of the
level constraints can choose it; in the model without depth variables (only
constraints A, B and the roots) the same cut remains selectable, as the
concrete `c10data` catalog and `c10assign` valuation show. -/
theorem self_leaf_depth_infeasible :
    (∀ (data : Catalog) (bound : Nat) (fixD : Option Nat) (a : Assign),
      satisfiesLevels data bound fixD a = true →
      ∀ nd ∈ data.nodes, ∀ i c, (i, c) ∈ varCutOf data.nodes nd.name →
        nd.name ∈ c.leaves → a.chosen nd.name i = false) ∧
    (satisfiesA c10data.nodes c10assign = true ∧
     satisfiesB c10data.nodes c10assign = true ∧
     satisfiesRoots c10data c10assign = true ∧
     extract_chosen_cuts c10data.nodes c10assign = [("n", 0)]) := by
  constructor
  · intro data bound fixD a hsat nd hnd i c hic hleaf
    unfold satisfiesLevels at hsat
    simp only [Bool.and_eq_true] at hsat
    obtain ⟨⟨⟨⟨hinp, hnd_all⟩, hdva⟩, hdlev⟩, hfix⟩ := hsat
    rw [List.all_eq_true] at hnd_all
    have hF := hnd_all nd hnd
    simp only [Bool.and_eq_true] at hF
    obtain ⟨⟨⟨hdom, hlink⟩, hfloor⟩, hcuts⟩ := hF
    rw [List.all_eq_true] at hcuts
    have hc := hcuts (i, c) hic
    rw [List.all_eq_true] at hc
    have hl := hc nd.name hleaf
    have hcont : (nodeNames data.nodes).contains nd.name = true :=
      (contains_iff_mem _ _).2 (List.mem_map_of_mem _ hnd)
    rw [if_pos hcont] at hl
    have hineq := of_decide_eq_true hl
    cases hch : a.chosen nd.name i with
    | false => rfl
    | true =>
      exfalso
      rw [hch] at hineq
      simp only [boolToInt, if_true, sub_self, mul_zero, sub_zero] at hineq
      have hstep : 1 ≤ stepOf c := by
        unfold stepOf
        split <;> omega
      omega
  · exact ⟨by decide, by decide, by decide, by decide⟩

/-- Witness for `self_leaf_depth_infeasible`: the all-zero valuation
satisfies the depth constraints of `c10data`, and the theorem forces its
choice variable for the self-referencing cut to 0. -/
theorem self_leaf_depth_infeasible_witness :
    allZeroAssign.chosen "n" 0 = false :=
  self_leaf_depth_infeasible.1 c10data 5 none allZeroAssign (by decide)
    ⟨"n", [⟨["n", "x"], 0, 2, 1⟩]⟩ (by decide) 0 ⟨["n", "x"], 0, 2, 1⟩
    (by decide) (by decide)

/-! ## Claim C8: termination of the depth DFS

The fuel parameter of `depthGo` is an embedding artifact; the following
lemmas show that with fuel exceeding the number of distinct catalog names
not on the stack the out-of-fuel result `none` is unreachable, i.e. the
source's memoized recursion with its cycle check is a total function. -/

theorem depthLeavesF_ne_none (f : String → Memo → Option (Nat × Memo))
    (hf : ∀ l m, f l m ≠ none) :
    ∀ (leaves : List String) (memo : Memo) (acc : Nat),
      depthLeavesF f leaves memo acc ≠ none := by
  intro leaves
  induction leaves with
  | nil =>
    intro memo acc
    simp [depthLeavesF]
  | cons l rest ih =>
    intro memo acc
    simp only [depthLeavesF]
    cases hfl : f l memo with
    | none => exact absurd hfl (hf l memo)
    | some p =>
      obtain ⟨d, memo1⟩ := p
      exact ih memo1 (max acc d)

theorem depthCutsF_ne_none (f : String → Memo → Option (Nat × Memo))
    (hf : ∀ l m, f l m ≠ none) (name : String) :
    ∀ (cuts : List NCut) (memo : Memo) (best : Option Nat),
      depthCutsF f name cuts memo best ≠ none := by
  intro cuts
  induction cuts with
  | nil =>
    intro memo best
    simp [depthCutsF]
  | cons c rest ih =>
    intro memo best
    simp only [depthCutsF]
    by_cases hs : isSelfCut name c = true
    · rw [if_pos hs]
      exact ih memo best
    · rw [if_neg hs]
      cases hlv : depthLeavesF f (c.leaves.filter (fun l => l ≠ name)) memo 0 with
      | none => exact absurd hlv (depthLeavesF_ne_none f hf _ memo 0)
      | some p =>
        obtain ⟨leafMax, memo1⟩ := p
        exact ih memo1 _

theorem filter_length_mono (p q : String → Bool)
    (hpq : ∀ x, p x = true → q x = true) :
    ∀ l : List String, (l.filter p).length ≤ (l.filter q).length := by
  intro l
  induction l with
  | nil => simp
  | cons a l ih =>
    by_cases hp : p a = true
    · rw [List.filter_cons_of_pos hp, List.filter_cons_of_pos (hpq a hp)]
      simpa using ih
    · rw [List.filter_cons_of_neg hp, List.filter_cons]
      by_cases hq : q a = true
      · rw [if_pos hq]
        simp only [List.length_cons]
        omega
      · rw [if_neg hq]
        exact ih

theorem filter_length_lt (p q : String → Bool) (a : String)
    (hpq : ∀ x, p x = true → q x = true)
    (hpa : p a = false) (hqa : q a = true) :
    ∀ l : List String, a ∈ l → (l.filter p).length < (l.filter q).length := by
  intro l
  induction l with
  | nil => intro hmem; cases hmem
  | cons b l ih =>
    intro hmem
    rcases List.mem_cons.1 hmem with rfl | hmem2
    · rw [List.filter_cons_of_neg (by rw [hpa]; exact Bool.false_ne_true),
        List.filter_cons_of_pos hqa]
      simp only [List.length_cons]
      have := filter_length_mono p q hpq l
      omega
    · by_cases hpb : p b = true
      · rw [List.filter_cons_of_pos hpb, List.filter_cons_of_pos (hpq b hpb)]
        simp only [List.length_cons]
        have := ih hmem2
        omega
      · rw [List.filter_cons_of_neg hpb, List.filter_cons]
        by_cases hqb : q b = true
        · rw [if_pos hqb]
          simp only [List.length_cons]
          have := ih hmem2
          omega
        · rw [if_neg hqb]
          exact ih hmem2

theorem contains_mono (visiting : List String) (name x : String)
    (hx : visiting.contains x = true) : (name :: visiting).contains x = true := by
  rw [contains_iff_mem] at hx ⊢
  exact List.mem_cons_of_mem name hx

theorem measure_cons_lt (nodes : List NNode) (visiting : List String) (name : String)
    (hmem : name ∈ nodeNames nodes) (hnv : visiting.contains name = false) :
    measureOf nodes (name :: visiting) < measureOf nodes visiting := by
  unfold measureOf
  apply filter_length_lt _ _ name
  · intro x hx
    rw [Bool.not_eq_true'] at hx ⊢
    cases hcv : visiting.contains x with
    | false => rfl
    | true =>
      rw [contains_mono visiting name x hcv] at hx
      cases hx
  · have hc : (name :: visiting).contains name = true :=
      (contains_iff_mem _ _).2 (List.mem_cons_self name visiting)
    rw [hc]
    rfl
  · rw [hnv]
    rfl
  · exact List.mem_dedup.2 hmem

theorem depthGo_ne_none (nodes : List NNode) :
    ∀ (fuel : Nat) (visiting : List String) (name : String) (memo : Memo),
      measureOf nodes visiting < fuel → depthGo nodes fuel visiting name memo ≠ none := by
  intro fuel
  induction fuel with
  | zero =>
    intro visiting name memo h
    exact absurd h (Nat.not_lt_zero _)
  | succ fuel ih =>
    intro visiting name memo h
    cases hlk : List.lookup name memo with
    | some v => simp [depthGo, hlk]
    | none =>
      by_cases hvismem : name ∈ visiting
      · simp [depthGo, hlk, hvismem]
      · have hvis : visiting.contains name = false := by
          cases hcv : visiting.contains name with
          | false => rfl
          | true => exact absurd ((contains_iff_mem _ _).1 hcv) hvismem
        cases hnl : nodeLookup nodes name with
        | none => simp [depthGo, hlk, hvismem, hnl]
        | some nd =>
          have hmem : name ∈ nodeNames nodes := by
            have h2 := nodeLookup_name hnl
            rw [← h2]
            exact List.mem_map_of_mem _ (nodeLookup_mem hnl)
          have hlt : measureOf nodes (name :: visiting) < fuel := by
            have := measure_cons_lt nodes visiting name hmem hvis
            omega
          have hrec : ∀ l m, depthGo nodes fuel (name :: visiting) l m ≠ none :=
            fun l m => ih (name :: visiting) l m hlt
          have hcuts := depthCutsF_ne_none _ hrec nd.name nd.cuts memo none
          cases hdc : depthCutsF (depthGo nodes fuel (name :: visiting)) nd.name nd.cuts memo none with
          | none => exact absurd hdc hcuts
          | some p =>
            obtain ⟨best, memo1⟩ := p
            simp [depthGo, hlk, hvismem, hnl, hdc]

/-! ## Claim C8 -/

/-- Claim C8: the memoized DFS behind `depth_upper_bound` terminates on
every catalog, cyclic leaf references included — when it re-encounters a
name on its stack (and not in the memo) it returns the sentinel
`len(nodes) or 1` immediately without recursing and without writing the
memo, and with the sufficient fuel `fuelOf` (one more than the number of
distinct catalog names) the computation never runs out of fuel, i.e. the
depth computation is total. -/
theorem depth_dfs_total (nodes : List NNode) :
    (∀ (fuel : Nat) (visiting : List String) (name : String) (memo : Memo),
      List.lookup name memo = none → visiting.contains name = true →
      depthGo nodes (fuel + 1) visiting name memo = some (sentinelOf nodes, memo)) ∧
    (∀ name : String, depthGo nodes (fuelOf nodes) [] name [] ≠ none) := by
  constructor
  · intro fuel visiting name memo hlk hvis
    simp [depthGo, hlk, (contains_iff_mem _ _).1 hvis]
  · intro name
    apply depthGo_ne_none
    unfold fuelOf
    omega

/-- Witness for `depth_dfs_total` on the cyclic two-node catalog `cyc`:
the on-stack call returns the sentinel 2, and the top-level call with the
sufficient fuel produces a value. -/
theorem depth_dfs_total_witness :
    depthGo cyc.nodes 4 ["a"] "a" [] = some (sentinelOf cyc.nodes, []) ∧
    depthGo cyc.nodes (fuelOf cyc.nodes) [] "a" [] ≠ none :=
  ⟨(depth_dfs_total cyc.nodes).1 3 ["a"] "a" [] (by decide) (by decide),
   (depth_dfs_total cyc.nodes).2 "a"⟩

end CPSATr
